import Mathlib

/-
Verification development for the conditioning-noise-injection node pack.

Modelling conventions:
* Python floats are modelled exactly over ℚ (all operations used by the code
  are +, -, *, /, max, min and comparisons).
* A conditioning payload (torch tensor of shape [Batch, Tokens, Channels]) is
  modelled as a nested list of rationals; `torch.repeat(n, 1, 1)` becomes
  tiling of the outer list.
* `torch.Generator` is modelled as a pair (seed, number of draws so far);
  `torch.randn(shape, generator=g)` is modelled by an opaque deterministic
  noise function of the seed, the draw index and the element position, so the
  drawn array is shape-matched to the processing tensor by construction and
  depends on nothing else.
* `dict.get(key, default)` on the conditioning metadata becomes `Option.getD`;
  the remaining metadata keys are carried opaquely.
-/

namespace CNI

/-- A payload: nested list shaped [Batch, Tokens, Channels]. -/
abbrev Tensor := List (List (List ℚ))

/-- Elementwise scalar multiplication, `noise * strength`. -/
def smulT (c : ℚ) (t : Tensor) : Tensor :=
  t.map (fun m => m.map (fun r => r.map (fun x => c * x)))

/-- Elementwise addition of two same-shaped tensors. -/
def addT (a b : Tensor) : Tensor :=
  List.zipWith (fun m m' => List.zipWith (fun r r' => List.zipWith (· + ·) r r') m m') a b

/-- Deterministic model of one `randn` stream: seed → draw index →
batch index → token index → channel index → value. -/
abbrev NoiseFn := ℕ → ℕ → ℕ → ℕ → ℕ → ℚ

/-- Fill one row with noise values, positions starting at `k`. -/
def randRow (f : ℕ → ℚ) : ℕ → List ℚ → List ℚ
  | _, [] => []
  | k, _ :: xs => f k :: randRow f (k + 1) xs

/-- Fill one matrix with noise values. -/
def randMat (f : ℕ → ℕ → ℚ) : ℕ → List (List ℚ) → List (List ℚ)
  | _, [] => []
  | j, r :: rs => randRow (f j) 0 r :: randMat f (j + 1) rs

/-- Fill a whole tensor with noise values. -/
def randnLike (f : ℕ → ℕ → ℕ → ℚ) : ℕ → Tensor → Tensor
  | _, [] => []
  | b, m :: ms => randMat (f b) 0 m :: randnLike f (b + 1) ms

/-- Model of `torch.randn(t.size(), generator=g)`: a noise tensor shaped like
`t`, depending only on the generator seed and the draw index. -/
def randn (nf : NoiseFn) (seed draws : ℕ) (t : Tensor) : Tensor :=
  randnLike (nf seed draws) 0 t

/-- Model of a `torch.Generator`: the seed it was `manual_seed`ed with and the
number of `randn` draws made so far. -/
structure Gen where
  seed : ℕ
  draws : ℕ
deriving DecidableEq

/-- The conditioning metadata dict: the two timing keys (absent or present)
plus the remaining keys, carried opaquely. -/
structure CondDict where
  start_percent : Option ℚ
  end_percent : Option ℚ
  extra : List (String × ℚ)
deriving DecidableEq

/-- One conditioning item `[tensor, dict]`. -/
structure Segment where
  tensor : Tensor
  dict : CondDict
deriving DecidableEq

/-- Overwriting the two timing keys on a (copied) dict. -/
def setWindow (d : CondDict) (s e : ℚ) : CondDict :=
  { d with start_percent := some s, end_percent := some e }

/-- Model of `get_time_intersection` of the preset / dynamic variants: clamp the
candidate sub-window to the conditioning's own window, no sentinel. -/
def get_time_intersection (params : CondDict) (limit_start limit_end : ℚ) : ℚ × ℚ :=
  (max (params.start_percent.getD 0) limit_start,
   min (params.end_percent.getD 1) limit_end)

/-- Batch expansion: `[1,T,C]` repeated to `[N,T,C]` when the input batch is 1
and the target is larger; otherwise the tensor is left untouched. -/
def expandBatch (tensor : Tensor) (batch_size_from_js : ℕ) : Tensor :=
  let current := tensor.length
  let target := max current batch_size_from_js
  if current = 1 ∧ 1 < target then (List.replicate target tensor).flatten else tensor

/-- Sum of the strengths of every layer whose threshold lies strictly above
`t` (the accumulation loop of `inject_noise_preset`). -/
def totalStrength (raw_layers : List (ℚ × ℚ)) (t : ℚ) : ℚ :=
  ((raw_layers.filter (fun l => decide (t < l.1))).map Prod.snd).sum

/-- Model of `sorted(set(...))` over the breakpoints 0, 1 and the thresholds. -/
def sortedBreaks (raw_layers : List (ℚ × ℚ)) : List ℚ :=
  List.insertionSort (· ≤ ·) (((0 : ℚ) :: 1 :: raw_layers.map Prod.fst).dedup)

/-- Consecutive breakpoint pairs: the curve's sub-windows. -/
def curveSegments (raw_layers : List (ℚ × ℚ)) : List (ℚ × ℚ) :=
  (sortedBreaks raw_layers).zip (sortedBreaks raw_layers).tail

/-- The body of the per-sub-window loop of `inject_noise_preset`: intersect,
drop empty intersections, accumulate the strength at the intersection's
start, scale it, and emit a noisy or clean segment. -/
def processSegmentPreset (raw_layers : List (ℚ × ℚ)) (strength_scale : ℚ)
    (original_dict : CondDict) (processing noise : Tensor) (seg : ℚ × ℚ) :
    List Segment :=
  let v := get_time_intersection original_dict seg.1 seg.2
  if v.1 < v.2 then
    let final_strength := totalStrength raw_layers v.1 * strength_scale
    if 0 < final_strength then
      [⟨addT processing (smulT final_strength noise), setWindow original_dict v.1 v.2⟩]
    else
      [⟨processing, setWindow original_dict v.1 v.2⟩]
  else []

/-- Per-conditioning-item body of `inject_noise_preset`: batch-expand, draw
one noise tensor (advancing the generator once), then walk the sub-windows. -/
def processItemPreset (nf : NoiseFn) (raw_layers : List (ℚ × ℚ))
    (strength_scale : ℚ) (batch_size_from_js : ℕ) (g : Gen) (t : Segment) :
    List Segment × Gen :=
  let proc := expandBatch t.tensor batch_size_from_js
  let noise := randn nf g.seed g.draws proc
  (((curveSegments raw_layers).map
      (processSegmentPreset raw_layers strength_scale t.dict proc noise)).flatten,
   ⟨g.seed, g.draws + 1⟩)

/-- One step of the outer conditioning loop of `inject_noise_preset`. -/
def presetStep (nf : NoiseFn) (raw_layers : List (ℚ × ℚ)) (strength_scale : ℚ)
    (batch_size_from_js : ℕ) (acc : List Segment × Gen) (t : Segment) :
    List Segment × Gen :=
  let r := processItemPreset nf raw_layers strength_scale batch_size_from_js acc.2 t
  (acc.1 ++ r.1, r.2)

/-- Model of `inject_noise_preset` with the recipe already resolved to its layer
list: generator seeded once with `seed`, then the conditioning walked in
order. -/
def injectNoisePresetLayers (nf : NoiseFn) (conditioning : List Segment)
    (raw_layers : List (ℚ × ℚ)) (strength_scale : ℚ) (seed : ℕ)
    (batch_size_from_js : ℕ) : List Segment :=
  (conditioning.foldl (presetStep nf raw_layers strength_scale batch_size_from_js)
    ([], ⟨seed, 0⟩)).1

/-- The static recipe table of `ConditioningNoiseInjectionPresets.RECIPES`,
as an association list (the Python dict has pairwise-distinct keys). -/
def RECIPES : List (String × List (ℚ × ℚ)) := [
  ("Disabled", []),
  ("🟢 Cinematic Haze (Texture Only)", [(55/100, 1/2), (44/100, 1/2), (33/100, 1)]),
  ("🟢 Texture Fader (High Detail)", [(45/100, 2), (23/100, 4)]),
  ("🟢 The Fluid Half", [(50/100, 3/2), (22/100, 3)]),
  ("🟢 Portrait Skin Saver", [(34/100, 1/2), (26/100, 1), (17/100, 3), (9/100, 5)]),
  ("🟢 The Perfect Slope", [(34/100, 1), (26/100, 1), (17/100, 1), (9/100, 1)]),
  ("🟡 The Steep Cliff (Cleanest)", [(45/100, 1), (34/100, 3), (23/100, 5), (12/100, 8)]),
  ("🟡 Hard Cut (Contrast)", [(33/100, 4), (33/100, 2)]),
  ("🟡 Logarithmic Decay (Natural)", [(45/100, 1), (26/100, 3), (10/100, 8)]),
  ("🟡 The Golden Curve (Best General)", [(51/100, 1), (34/100, 2), (18/100, 4), (9/100, 8)]),
  ("🟠 Negative Scrambler (Fix Poses)", [(55/100, 2), (15/100, 5)]),
  ("🟠 Painterly Softness (Late Noise)", [(66/100, 1), (33/100, 2)]),
  ("🟠 Grit Gradient (Texture)", [(42/100, 3), (18/100, 5)]),
  ("🟠 The Delayed Drop (Painterly)", [(51/100, 2), (42/100, 2), (26/100, 4), (17/100, 6)]),
  ("🟠 Hallucination Engine (Surreal)", [(55/100, 2), (35/100, 4), (18/100, 6)]),
  ("🔴 Detail Scrambler", [(34/100, 2), (23/100, 4), (23/100, 4)]),
  ("🔴 The Plateau (Stubborn Prompts)", [(45/100, 1), (34/100, 2), (23/100, 6), (23/100, 6)]),
  ("🔴 Surreal Melt", [(51/100, 2), (51/100, 2)]),
  ("🔴 Deep Fryer", [(25/100, 4), (25/100, 4)]),
  ("🤡 Composition Kicker (Chaos Start)", [(35/100, 3), (12/100, 15)]),
  ("🤡 The Nuclear Option", [(12/100, 25), (23/100, 2)]),
  ("🤡 The Hiccup", [(17/100, 10), (25/100, 1)]),
  ("🤡 Dream Shifter (Variation)", [(35/100, 2), (9/100, 12)]),
  ("🤡 Composition Lock", [(17/100, 10), (9/100, 5)])]

/-- Model of `inject_noise_preset` proper: `self.RECIPES.get(preset, [])` then the
layer-resolved scheduler. -/
def injectNoisePreset (nf : NoiseFn) (conditioning : List Segment)
    (preset : String) (strength_scale : ℚ) (seed : ℕ)
    (batch_size_from_js : ℕ) : List Segment :=
  injectNoisePresetLayers nf conditioning ((RECIPES.lookup preset).getD [])
    strength_scale seed batch_size_from_js

/-- Pair each list element with its index, starting at `d`. -/
def withIdx (d : ℕ) : List Segment → List (ℕ × Segment)
  | [] => []
  | x :: xs => (d, x) :: withIdx (d + 1) xs

-- ---------------------------------------------------------------------------
-- The dynamic (procedural-ramp) variant, `inject_dynamic`.
-- ---------------------------------------------------------------------------

/-- The quantity `step_len = 1.0 / max(1, steps)`. -/
def stepLen (steps : ℤ) : ℚ := 1 / ((max 1 steps : ℤ) : ℚ)

/-- The quantity `target_duration`, the lerp between `1.5 * step_len` and `0.60`, clamped
to at most `1.0`. -/
def targetDuration (steps : ℤ) (chaos_factor : ℚ) : ℚ :=
  min (stepLen steps * (3/2) + (3/5 - stepLen steps * (3/2)) * chaos_factor) 1

/-- The quantity `peak_strength`, the lerp between `2.0` and `20.0`. -/
def peakStrength (chaos_factor : ℚ) : ℚ := 2 + (20 - 2) * chaos_factor

/-- The quantity `chunk_size = target_duration / num_segments`. -/
def chunkSize (steps num_segments : ℤ) (chaos_factor : ℚ) : ℚ :=
  targetDuration steps chaos_factor / (num_segments : ℚ)

/-- The quantity `progress = i / max(1, num_segments - 1) if num_segments > 1 else 0.0`. -/
def progressAt (num_segments : ℤ) (i : ℕ) : ℚ :=
  if 1 < num_segments then (i : ℚ) / ((max 1 (num_segments - 1) : ℤ) : ℚ) else 0

/-- The segment-generation loop of `inject_dynamic`: walks the index list,
carrying `current_time`. -/
def rampLoop (num_segments : ℤ) (peak strength_scale chunk : ℚ) :
    List ℕ → ℚ → List (ℚ × ℚ × ℚ)
  | [], _ => []
  | i :: rest, cur =>
      (cur, cur + chunk,
        peak * (1 - progressAt num_segments i * (9/10)) * strength_scale) ::
      rampLoop num_segments peak strength_scale chunk rest (cur + chunk)

/-- The procedural curve of `inject_dynamic`.  `chunk_size`'s division fails
(Python `ZeroDivisionError`) when `num_segments == 0`; `range(num_segments)`
is empty when `num_segments < 0`. -/
def injectDynamicCurve (steps num_segments : ℤ) (chaos_factor strength_scale : ℚ) :
    Except String (List (ℚ × ℚ × ℚ)) :=
  if num_segments = 0 then .error ("ZeroDivisionError: division by zero")
  else .ok (rampLoop num_segments (peakStrength chaos_factor) strength_scale
    (chunkSize steps num_segments chaos_factor) (List.range num_segments.toNat) 0)

/-- The per-sub-window emission of `inject_dynamic` (noise always blended,
even at zero strength). -/
def dynEmitSeg (dict : CondDict) (proc noise : Tensor) (seg : ℚ × ℚ × ℚ) :
    List Segment :=
  let v := get_time_intersection dict seg.1 seg.2.1
  if v.1 < v.2 then [⟨addT proc (smulT seg.2.2 noise), setWindow dict v.1 v.2⟩]
  else []

/-- The prefix of the curve the per-item loop actually visits (the loop
breaks at the first sub-window with `seg_start >= 1.0`). -/
def activeSegs (segments : List (ℚ × ℚ × ℚ)) : List (ℚ × ℚ × ℚ) :=
  segments.takeWhile (fun seg => decide (seg.1 < 1))

/-- The value of `last_end_time` after the per-item loop of `inject_dynamic`. -/
def lastEndTime (segments : List (ℚ × ℚ × ℚ)) : ℚ :=
  (activeSegs segments).foldl (fun l seg => max l seg.2.1) 0

/-- Per-conditioning-item body of `inject_dynamic`: batch-expand, draw one
noise tensor, emit the ramp sub-windows, then the clean tail. -/
def processItemDynamic (nf : NoiseFn) (segments : List (ℚ × ℚ × ℚ))
    (batch_size_from_js : ℕ) (g : Gen) (t : Segment) : List Segment × Gen :=
  let proc := expandBatch t.tensor batch_size_from_js
  let noise := randn nf g.seed g.draws proc
  let noisy := ((activeSegs segments).map (dynEmitSeg t.dict proc noise)).flatten
  let tl := get_time_intersection t.dict (lastEndTime segments) 1
  let tailSegs : List Segment :=
    if tl.1 < tl.2 then [⟨proc, setWindow t.dict tl.1 tl.2⟩] else []
  (noisy ++ tailSegs, ⟨g.seed, g.draws + 1⟩)

/-- Model of `inject_dynamic` end to end (conditioning output only; the node also
returns `steps` unchanged). -/
def injectDynamic (nf : NoiseFn) (conditioning : List Segment)
    (steps num_segments : ℤ) (chaos_factor strength_scale : ℚ) (seed : ℕ)
    (batch_size_from_js : ℕ) : Except String (List Segment) := do
  let segments ← injectDynamicCurve steps num_segments chaos_factor strength_scale
  pure (conditioning.foldl
    (fun acc t =>
      let r := processItemDynamic nf segments batch_size_from_js acc.2 t
      (acc.1 ++ r.1, r.2))
    ([], ⟨seed, 0⟩)).1

/-- The curve the spec's words describe for the procedural variant: for each
`i < num_segments` the window `[i*chunk, (i+1)*chunk)` and the linearly
decaying intensity, written from the claim's formulas. -/
def dynCurveSpec (steps num_segments : ℤ) (chaos_factor strength_scale : ℚ) :
    List (ℚ × ℚ × ℚ) :=
  (List.range num_segments.toNat).map (fun (i : ℕ) =>
    ((i : ℚ) * chunkSize steps num_segments chaos_factor,
     ((i : ℚ) + 1) * chunkSize steps num_segments chaos_factor,
     peakStrength chaos_factor *
       (1 - (9/10) * (if 1 < num_segments then (i : ℚ) / ((num_segments : ℚ) - 1) else 0)) *
       strength_scale))

/-- "The payload is the batch-expanded input, possibly with one shared noise
draw blended in at some strength" (used to state noise-reuse). -/
def derivedFromNoise (proc noise outT : Tensor) : Prop :=
  outT = proc ∨ ∃ c : ℚ, outT = addT proc (smulT c noise)

/-- "The output dict's window is non-degenerate and contained in the input
dict's window." -/
def windowContained (d out : CondDict) : Prop :=
  ∃ vs ve : ℚ, out.start_percent = some vs ∧ out.end_percent = some ve ∧
    d.start_percent.getD 0 ≤ vs ∧ ve ≤ d.end_percent.getD 1 ∧ vs < ve

-- ---------------------------------------------------------------------------
-- Helper lemmas about the breakpoint list and consecutive pairs.
-- ---------------------------------------------------------------------------

lemma mem_sortedBreaks {raw_layers : List (ℚ × ℚ)} {x : ℚ} :
    x ∈ sortedBreaks raw_layers ↔ x = 0 ∨ x = 1 ∨ x ∈ raw_layers.map Prod.fst := by
  unfold sortedBreaks
  rw [(List.perm_insertionSort _ _).mem_iff, List.mem_dedup]
  simp

lemma sortedBreaks_sorted_le (raw_layers : List (ℚ × ℚ)) :
    (sortedBreaks raw_layers).Sorted (· ≤ ·) :=
  List.sorted_insertionSort _ _

lemma sortedBreaks_nodup (raw_layers : List (ℚ × ℚ)) :
    (sortedBreaks raw_layers).Nodup :=
  (List.perm_insertionSort _ _).nodup_iff.mpr (List.nodup_dedup _)

lemma sortedBreaks_sorted_lt (raw_layers : List (ℚ × ℚ)) :
    (sortedBreaks raw_layers).Sorted (· < ·) := by
  have h := (sortedBreaks_sorted_le raw_layers).and (sortedBreaks_nodup raw_layers)
  exact h.imp (fun hp => lt_of_le_of_ne hp.1 hp.2)

lemma sortedBreaks_ne_nil (raw_layers : List (ℚ × ℚ)) :
    sortedBreaks raw_layers ≠ [] := by
  intro h
  have : (0 : ℚ) ∈ sortedBreaks raw_layers := mem_sortedBreaks.mpr (Or.inl rfl)
  simp [h] at this

lemma sorted_le_getLast {L : List ℚ} (hs : L.Sorted (· ≤ ·)) (hne : L ≠ []) :
    ∀ x ∈ L, x ≤ L.getLast hne := by
  induction L with
  | nil => exact absurd rfl hne
  | cons a t ih =>
    intro x hx
    cases t with
    | nil =>
      simp only [List.mem_singleton] at hx
      simp [hx, List.getLast]
    | cons b t' =>
      rw [List.getLast_cons (by simp)]
      rcases List.mem_cons.mp hx with h | h
      · subst h
        exact le_trans (List.rel_of_sorted_cons hs _ (List.mem_cons_self _ _))
          (ih (List.sorted_cons.mp hs).2 (by simp) _ (List.mem_cons_self _ _))
      · exact ih (List.sorted_cons.mp hs).2 (by simp) _ h

lemma sorted_head_le {L : List ℚ} (hs : L.Sorted (· ≤ ·)) (hne : L ≠ [])
    {x : ℚ} (hx : x ∈ L) : L.head hne ≤ x := by
  cases L with
  | nil => exact absurd rfl hne
  | cons a t =>
    rcases List.mem_cons.mp hx with h | h
    · simp [h]
    · exact List.rel_of_sorted_cons hs _ h

lemma zipTail_nondeg {L : List ℚ} (hs : L.Sorted (· < ·)) :
    ∀ p ∈ L.zip L.tail, p.1 < p.2 := by
  induction L with
  | nil => simp
  | cons a t ih =>
    cases t with
    | nil => simp
    | cons b t' =>
      intro p hp
      rw [List.tail_cons, List.zip_cons_cons] at hp
      rcases List.mem_cons.mp hp with h | h
      · subst h
        exact List.rel_of_sorted_cons hs _ (List.mem_cons_self _ _)
      · exact ih (List.sorted_cons.mp hs).2 p h

lemma zipTail_chain_contig (L : List ℚ) :
    (L.zip L.tail).Chain' (fun p q => p.2 = q.1) := by
  induction L with
  | nil => simp
  | cons a t ih =>
    cases t with
    | nil => simp
    | cons b t' =>
      rw [List.tail_cons, List.zip_cons_cons]
      cases t' with
      | nil => simp
      | cons c t'' =>
        rw [List.tail_cons] at ih
        rw [List.zip_cons_cons]
        rw [List.zip_cons_cons] at ih
        exact List.chain'_cons.mpr ⟨rfl, ih⟩

lemma zipTail_pairwise_sep {L : List ℚ} (hs : L.Sorted (· < ·)) :
    (L.zip L.tail).Pairwise (fun p q => p.2 ≤ q.1) := by
  induction L with
  | nil => simp
  | cons a t ih =>
    cases t with
    | nil => simp
    | cons b t' =>
      rw [List.tail_cons, List.zip_cons_cons]
      refine List.Pairwise.cons ?_ (ih (List.sorted_cons.mp hs).2)
      intro q hq
      have hq1 : q.1 ∈ b :: t' := (List.of_mem_zip hq).1
      rcases List.mem_cons.mp hq1 with h | h
      · simp [← h]
      · exact le_of_lt (List.rel_of_sorted_cons (List.sorted_cons.mp hs).2 _ h)

lemma zipTail_sep_mem {L : List ℚ} (hs : L.Sorted (· < ·)) {s e : ℚ}
    (hmem : (s, e) ∈ L.zip L.tail) : ∀ x ∈ L, x ≤ s ∨ e ≤ x := by
  induction L with
  | nil => simp at hmem
  | cons a t ih =>
    cases t with
    | nil => simp at hmem
    | cons b t' =>
      rw [List.tail_cons, List.zip_cons_cons] at hmem
      rcases List.mem_cons.mp hmem with h | h
      · injection h with h1 h2
        subst h1; subst h2
        intro x hx
        rcases List.mem_cons.mp hx with hxa | hxt
        · exact Or.inl (le_of_eq hxa)
        · refine Or.inr ?_
          rcases List.mem_cons.mp hxt with hxb | hxt'
          · exact le_of_eq hxb.symm
          · exact le_of_lt (List.rel_of_sorted_cons (List.sorted_cons.mp hs).2 _ hxt')
      · intro x hx
        rcases List.mem_cons.mp hx with hxa | hxt
        · refine Or.inl ?_
          have hsmem : s ∈ b :: t' := (List.of_mem_zip h).1
          exact hxa ▸ le_of_lt (List.rel_of_sorted_cons hs _ hsmem)
        · exact ih (List.sorted_cons.mp hs).2 h x hxt

lemma zipTail_union {L : List ℚ} (hs : L.Sorted (· < ·)) (hne : L ≠ []) (x : ℚ) :
    (∃ p ∈ L.zip L.tail, p.1 ≤ x ∧ x < p.2) ↔
      (L.head hne ≤ x ∧ x < L.getLast hne) := by
  induction L with
  | nil => exact absurd rfl hne
  | cons a t ih =>
    cases t with
    | nil => simp [List.getLast]
    | cons b t' =>
      rw [List.tail_cons, List.zip_cons_cons, List.head_cons,
        List.getLast_cons (by simp : b :: t' ≠ [])]
      have hbLast : b ≤ (b :: t').getLast (by simp) := by
        refine sorted_head_le ?_ (by simp) (List.getLast_mem _)
        exact ((List.sorted_cons.mp hs).2).le_of_lt
      have hab : a < b :=
        List.rel_of_sorted_cons hs _ (List.mem_cons_self _ _)
      have ih' := ih (List.sorted_cons.mp hs).2 (by simp)
      constructor
      · rintro ⟨p, hp, hpx⟩
        rcases List.mem_cons.mp hp with h | h
        · subst h
          exact ⟨hpx.1, lt_of_lt_of_le hpx.2 hbLast⟩
        · have := ih'.mp ⟨p, h, hpx⟩
          rw [List.head_cons] at this
          exact ⟨le_trans hab.le this.1, this.2⟩
      · rintro ⟨h1, h2⟩
        by_cases hxb : x < b
        · exact ⟨(a, b), List.mem_cons_self _ _, h1, hxb⟩
        · push_neg at hxb
          obtain ⟨p, hp, hpx⟩ := ih'.mpr (by rw [List.head_cons]; exact ⟨hxb, h2⟩)
          exact ⟨p, List.mem_cons_of_mem _ hp, hpx⟩

lemma sortedBreaks_head (raw_layers : List (ℚ × ℚ))
    (hth : ∀ l ∈ raw_layers, 0 ≤ l.1 ∧ l.1 ≤ 1) :
    (sortedBreaks raw_layers).head (sortedBreaks_ne_nil _) = 0 := by
  have h0 : (0 : ℚ) ∈ sortedBreaks raw_layers := mem_sortedBreaks.mpr (Or.inl rfl)
  have hle := sorted_head_le (sortedBreaks_sorted_le _) (sortedBreaks_ne_nil _) h0
  have hmem := List.head_mem (sortedBreaks_ne_nil raw_layers)
  rcases mem_sortedBreaks.mp hmem with h | h | h
  · exact h
  · rw [h] at hle; norm_num at hle
  · obtain ⟨l, hl, hfst⟩ := List.mem_map.mp h
    exact le_antisymm hle (hfst ▸ (hth l hl).1)

lemma sortedBreaks_getLast (raw_layers : List (ℚ × ℚ))
    (hth : ∀ l ∈ raw_layers, 0 ≤ l.1 ∧ l.1 ≤ 1) :
    (sortedBreaks raw_layers).getLast (sortedBreaks_ne_nil _) = 1 := by
  have h1 : (1 : ℚ) ∈ sortedBreaks raw_layers := mem_sortedBreaks.mpr (Or.inr (Or.inl rfl))
  have hge := sorted_le_getLast (sortedBreaks_sorted_le _) (sortedBreaks_ne_nil _) _ h1
  have hmem := List.getLast_mem (sortedBreaks_ne_nil raw_layers)
  rcases mem_sortedBreaks.mp hmem with h | h | h
  · rw [h] at hge; norm_num at hge
  · exact h
  · obtain ⟨l, hl, hfst⟩ := List.mem_map.mp h
    exact le_antisymm (hfst ▸ (hth l hl).2) hge

/-- C2: for every recipe whose layer thresholds all lie in [0,1], the
sub-windows produced by the recipe-accumulation curve builder (breakpoints
{0, 1} plus every threshold, sorted, consecutive pairs) partition [0,1)
exactly: their union is [0,1), they are pairwise disjoint, contiguous, and
listed in ascending order of start, each non-degenerate. -/
theorem curve_subwindows_partition (raw_layers : List (ℚ × ℚ))
    (hth : ∀ l ∈ raw_layers, 0 ≤ l.1 ∧ l.1 ≤ 1) :
    (∀ x : ℚ, (∃ p ∈ curveSegments raw_layers, p.1 ≤ x ∧ x < p.2) ↔ (0 ≤ x ∧ x < 1))
    ∧ (curveSegments raw_layers).Pairwise
        (fun p q => ∀ x : ℚ, ¬(p.1 ≤ x ∧ x < p.2 ∧ q.1 ≤ x ∧ x < q.2))
    ∧ (curveSegments raw_layers).Chain' (fun p q => p.2 = q.1)
    ∧ (curveSegments raw_layers).Chain' (fun p q => p.1 < q.1)
    ∧ (∀ p ∈ curveSegments raw_layers, p.1 < p.2) := by
  have hlt := sortedBreaks_sorted_lt raw_layers
  have hnondeg : ∀ p ∈ curveSegments raw_layers, p.1 < p.2 := zipTail_nondeg hlt
  have hsep : (curveSegments raw_layers).Pairwise (fun p q => p.2 ≤ q.1) :=
    zipTail_pairwise_sep hlt
  refine ⟨?_, ?_, zipTail_chain_contig _, ?_, hnondeg⟩
  · intro x
    rw [show curveSegments raw_layers
        = (sortedBreaks raw_layers).zip (sortedBreaks raw_layers).tail from rfl,
      zipTail_union hlt (sortedBreaks_ne_nil _) x,
      sortedBreaks_head raw_layers hth, sortedBreaks_getLast raw_layers hth]
  · refine hsep.imp ?_
    rintro ⟨a1, a2⟩ ⟨b1, b2⟩ hab x ⟨_, hxa2, hxb1, _⟩
    exact absurd (lt_of_lt_of_le hxa2 (le_trans hab hxb1)) (lt_irrefl x)
  · refine List.Pairwise.chain' (List.Pairwise.imp_of_mem ?_ hsep)
    intro p q hp _ hpq
    exact lt_of_lt_of_le (hnondeg p hp) hpq

/-- Witness for C2 at the recipe [(1/2, 2)]: (0, 1/2) is one of its
sub-windows and is non-degenerate. -/
theorem curve_subwindows_partition_witness :
    ((0 : ℚ), (1 : ℚ)/2) ∈ curveSegments [((1 : ℚ)/2, 2)] ∧ (0 : ℚ) < (1 : ℚ)/2 := by
  have hm : ((0 : ℚ), (1 : ℚ)/2) ∈ curveSegments [((1 : ℚ)/2, 2)] := by
    norm_num [curveSegments, sortedBreaks, List.insertionSort, List.orderedInsert, List.dedup]
  exact ⟨hm, (curve_subwindows_partition [((1 : ℚ)/2, 2)] (by norm_num)).2.2.2.2 _ hm⟩

lemma totalStrength_inter_eq_seg_start (raw_layers : List (ℚ × ℚ))
    (original_dict : CondDict) {s e : ℚ}
    (hmem : (s, e) ∈ curveSegments raw_layers)
    (hv : (get_time_intersection original_dict s e).1
        < (get_time_intersection original_dict s e).2) :
    totalStrength raw_layers (get_time_intersection original_dict s e).1
      = totalStrength raw_layers s := by
  have hse : s < e := zipTail_nondeg (sortedBreaks_sorted_lt _) _ hmem
  have hs_le : s ≤ (get_time_intersection original_dict s e).1 := le_max_right _ _
  have hv_lt_e : (get_time_intersection original_dict s e).1 < e :=
    lt_of_lt_of_le hv (min_le_right _ _)
  unfold totalStrength
  congr 1
  congr 1
  apply List.filter_congr
  intro l hl
  have hbreak : l.1 ∈ sortedBreaks raw_layers :=
    mem_sortedBreaks.mpr (Or.inr (Or.inr (List.mem_map_of_mem _ hl)))
  rw [decide_eq_decide]
  rcases zipTail_sep_mem (sortedBreaks_sorted_lt _) hmem _ hbreak with h | h
  · constructor
    · intro hlt; exact absurd (lt_of_le_of_lt (le_trans h hs_le) hlt) (lt_irrefl _)
    · intro hlt; exact absurd (lt_of_lt_of_le hlt h) (lt_irrefl _)
  · exact ⟨fun _ => lt_of_lt_of_le hse h, fun _ => lt_of_lt_of_le hv_lt_e h⟩

/-- C1: in the fixed-recipe variant, for every recipe and input dict, the
effective intensity a curve sub-window (s, e) applies is the sum of the
intensities of the layers whose threshold is strictly greater than s — the
sub-window's start on the timeline partition, not the start of its
intersection with the input's window — scaled by the global multiplier. -/
theorem preset_intensity_from_seg_start (raw_layers : List (ℚ × ℚ))
    (strength_scale : ℚ) (original_dict : CondDict) (processing noise : Tensor)
    (s e : ℚ) (hmem : (s, e) ∈ curveSegments raw_layers) :
    processSegmentPreset raw_layers strength_scale original_dict processing noise (s, e) =
      (if (get_time_intersection original_dict s e).1
          < (get_time_intersection original_dict s e).2 then
        if 0 < totalStrength raw_layers s * strength_scale then
          [⟨addT processing (smulT (totalStrength raw_layers s * strength_scale) noise),
            setWindow original_dict (get_time_intersection original_dict s e).1
              (get_time_intersection original_dict s e).2⟩]
        else
          [⟨processing, setWindow original_dict (get_time_intersection original_dict s e).1
              (get_time_intersection original_dict s e).2⟩]
      else []) := by
  by_cases hv : (get_time_intersection original_dict s e).1
      < (get_time_intersection original_dict s e).2
  · have hts := totalStrength_inter_eq_seg_start raw_layers original_dict hmem hv
    simp only [processSegmentPreset, hv, if_true, hts]
  · simp only [processSegmentPreset, hv, if_false]

/-- Witness for C1: recipe [(1/2, 2)], input window (1/10, 1), global scale
1, sub-window (0, 1/2): the applied intensity is 2 (the layer's intensity,
since its threshold 1/2 > 0 = seg_start). -/
theorem preset_intensity_from_seg_start_witness :
    processSegmentPreset [((1 : ℚ)/2, 2)] 1 ⟨some (1/10), some 1, []⟩ [[[1]]] [[[5]]]
        (0, 1/2)
      = [⟨[[[11]]], setWindow ⟨some (1/10), some 1, []⟩ (1/10) (1/2)⟩] := by
  rw [preset_intensity_from_seg_start [((1 : ℚ)/2, 2)] 1 ⟨some (1/10), some 1, []⟩
    [[[1]]] [[[5]]] 0 (1/2) (by
      norm_num [curveSegments, sortedBreaks, List.insertionSort, List.orderedInsert,
        List.dedup])]
  norm_num [get_time_intersection, totalStrength, addT, smulT, setWindow]

lemma zipWith_add_smul_zero_row (f : ℕ → ℚ) :
    ∀ (r : List ℚ) (k : ℕ),
      List.zipWith (· + ·) r ((randRow f k r).map (fun x => (0 : ℚ) * x)) = r := by
  intro r
  induction r with
  | nil => intro k; rfl
  | cons x xs ih =>
    intro k
    rw [show randRow f k (x :: xs) = f k :: randRow f (k + 1) xs from rfl,
      List.map_cons, List.zipWith_cons_cons, zero_mul, add_zero, ih (k + 1)]

lemma zipWith_add_smul_zero_mat (f : ℕ → ℕ → ℚ) :
    ∀ (m : List (List ℚ)) (j : ℕ),
      List.zipWith (fun r r' => List.zipWith (· + ·) r r') m
        ((randMat f j m).map (fun r => r.map (fun x => (0 : ℚ) * x))) = m := by
  intro m
  induction m with
  | nil => intro j; rfl
  | cons r rs ih =>
    intro j
    simp only [randMat, List.map_cons, List.zipWith_cons_cons, ih (j + 1)]
    rw [zipWith_add_smul_zero_row]

lemma addT_smulT_zero_randn (f : ℕ → ℕ → ℕ → ℚ) :
    ∀ (t : Tensor) (b : ℕ), addT t (smulT 0 (randnLike f b t)) = t := by
  intro t
  induction t with
  | nil => intro b; rfl
  | cons m ms ih =>
    intro b
    have h1 : addT (m :: ms) (smulT 0 (randnLike f b (m :: ms)))
        = (List.zipWith (fun r r' => List.zipWith (· + ·) r r') m
            ((randMat (f b) 0 m).map (fun r => r.map (fun x => (0 : ℚ) * x))))
          :: addT ms (smulT 0 (randnLike f (b + 1) ms)) := rfl
    rw [h1, zipWith_add_smul_zero_mat (f b) m 0, ih (b + 1)]

/-- C3: a sub-window whose final (scaled) intensity is exactly 0 and whose
intersection with the input's window is non-empty emits the (batch-expanded)
input payload bit-identically — in the fixed-recipe variant the clean branch
passes the processing tensor through directly; in the procedural variant the
blend `proc + noise * 0` with the shape-matched noise draw equals `proc`. -/
theorem zero_intensity_passthrough :
    (∀ (raw_layers : List (ℚ × ℚ)) (strength_scale : ℚ) (original_dict : CondDict)
        (processing noise : Tensor) (seg : ℚ × ℚ),
      totalStrength raw_layers (get_time_intersection original_dict seg.1 seg.2).1
          * strength_scale = 0 →
      ∀ out ∈ processSegmentPreset raw_layers strength_scale original_dict
          processing noise seg,
        out.tensor = processing)
    ∧ (∀ (dict : CondDict) (proc : Tensor) (nf : NoiseFn) (seed draws : ℕ)
        (seg : ℚ × ℚ × ℚ), seg.2.2 = 0 →
      ∀ out ∈ dynEmitSeg dict proc (randn nf seed draws proc) seg,
        out.tensor = proc) := by
  constructor
  · intro raw_layers strength_scale original_dict processing noise seg hzero out hout
    simp only [processSegmentPreset] at hout
    split at hout
    · rw [hzero] at hout
      rw [if_neg (lt_irrefl 0)] at hout
      rw [List.mem_singleton] at hout
      rw [hout]
    · simp at hout
  · intro dict proc nf seed draws seg hzero out hout
    simp only [dynEmitSeg] at hout
    split at hout
    · rw [List.mem_singleton] at hout
      rw [hout]
      simp only [hzero, randn]
      exact addT_smulT_zero_randn (nf seed draws) proc 0
    · simp at hout

/-- Witness for C3: an empty recipe emits its processing tensor unchanged on
(0, 1), and a zero-strength procedural sub-window emits `proc + noise * 0`,
which equals `proc`. -/
theorem zero_intensity_passthrough_witness :
    (Segment.mk [[[(3 : ℚ)]]] (setWindow ⟨none, none, []⟩ 0 1)).tensor = [[[(3 : ℚ)]]]
    ∧ (Segment.mk (addT [[[(3 : ℚ)]]] (smulT 0 (randn (fun _ _ _ _ _ => 5) 0 0 [[[(3 : ℚ)]]])))
        (setWindow ⟨none, none, []⟩ 0 (1/2))).tensor = [[[(3 : ℚ)]]] := by
  constructor
  · exact zero_intensity_passthrough.1 [] 1 ⟨none, none, []⟩ [[[(3 : ℚ)]]] [[[(7 : ℚ)]]]
      (0, 1) (by norm_num [totalStrength]) _
      (by norm_num [processSegmentPreset, get_time_intersection, totalStrength, setWindow])
  · exact zero_intensity_passthrough.2 ⟨none, none, []⟩ [[[(3 : ℚ)]]] (fun _ _ _ _ _ => 5)
      0 0 (0, 1/2, 0) rfl _
      (by norm_num [dynEmitSeg, get_time_intersection, setWindow])

/-- C6: every output segment the preset scheduler emits for an input with a
valid window has a non-degenerate window contained in the input's own window;
empty or zero-width intersections are never emitted. -/
theorem preset_window_containment (nf : NoiseFn) (raw_layers : List (ℚ × ℚ))
    (strength_scale : ℚ) (batch_size_from_js : ℕ) (g : Gen) (t : Segment)
    (hvalid : t.dict.start_percent.getD 0 < t.dict.end_percent.getD 1) :
    ∀ out ∈ (processItemPreset nf raw_layers strength_scale batch_size_from_js g t).1,
      windowContained t.dict out.dict := by
  intro out hout
  simp only [processItemPreset, List.mem_flatten, List.mem_map] at hout
  obtain ⟨l, ⟨seg, hseg, rfl⟩, houtl⟩ := hout
  simp only [processSegmentPreset] at houtl
  split at houtl
  case isTrue hv =>
    split at houtl <;>
    · rw [List.mem_singleton] at houtl
      subst houtl
      exact ⟨_, _, rfl, rfl, le_max_left _ _, min_le_left _ _, hv⟩
  case isFalse hv => simp at houtl

/-- Witness for C6: with input window (1/4, 3/4) and an empty recipe, the
single emitted segment's window is exactly (1/4, 3/4), contained and
non-degenerate. -/
theorem preset_window_containment_witness :
    windowContained ⟨some (1/4), some (3/4), []⟩
      (setWindow ⟨some (1/4), some (3/4), []⟩ (1/4) (3/4)) := by
  have happ := preset_window_containment (fun _ _ _ _ _ => 0) [] 1 1 ⟨0, 0⟩
    ⟨[[[(5 : ℚ)]]], ⟨some (1/4), some (3/4), []⟩⟩ (by norm_num)
    ⟨[[[(5 : ℚ)]]], setWindow ⟨some (1/4), some (3/4), []⟩ (1/4) (3/4)⟩
    (by norm_num [processItemPreset, processSegmentPreset, curveSegments, sortedBreaks,
      List.insertionSort, List.orderedInsert, List.dedup, get_time_intersection,
      totalStrength, setWindow, expandBatch, randn, randnLike, randMat, randRow])
  exact happ

lemma presetFold_eq (nf : NoiseFn) (raw_layers : List (ℚ × ℚ))
    (strength_scale : ℚ) (batch_size_from_js : ℕ) :
    ∀ (conditioning : List Segment) (acc : List Segment) (seed d : ℕ),
      conditioning.foldl (presetStep nf raw_layers strength_scale batch_size_from_js)
          (acc, ⟨seed, d⟩)
        = (acc ++ ((withIdx d conditioning).map
            (fun p => (processItemPreset nf raw_layers strength_scale batch_size_from_js
              ⟨seed, p.1⟩ p.2).1)).flatten,
           ⟨seed, d + conditioning.length⟩) := by
  intro conditioning
  induction conditioning with
  | nil => intro acc seed d; simp [withIdx]
  | cons t rest ih =>
    intro acc seed d
    rw [List.foldl_cons]
    rw [show presetStep nf raw_layers strength_scale batch_size_from_js (acc, ⟨seed, d⟩) t
        = (acc ++ (processItemPreset nf raw_layers strength_scale batch_size_from_js
            ⟨seed, d⟩ t).1, ⟨seed, d + 1⟩) from rfl]
    rw [ih]
    rw [show withIdx d (t :: rest) = (d, t) :: withIdx (d + 1) rest from rfl]
    rw [List.map_cons, List.flatten_cons, List.append_assoc]
    rw [show d + 1 + rest.length = d + (rest.length + 1) from by omega]
    rfl

lemma mem_withIdx_snd : ∀ (conditioning : List Segment) (d i : ℕ) (t : Segment),
    (i, t) ∈ withIdx d conditioning → t ∈ conditioning := by
  intro conditioning
  induction conditioning with
  | nil => intro d i t h; simp [withIdx] at h
  | cons x rest ih =>
    intro d i t h
    rw [show withIdx d (x :: rest) = (d, x) :: withIdx (d + 1) rest from rfl] at h
    rcases List.mem_cons.mp h with h | h
    · injection h with h1 h2
      exact h2 ▸ List.mem_cons_self _ _
    · exact List.mem_cons_of_mem _ (ih (d + 1) i t h)

/-- C4: within one preset-variant scheduling call the generator is seeded
once with the supplied seed, item i draws its noise at generator state
(seed, i) — one draw per input item, in input order, even when nothing is
emitted — the final generator state has advanced once per item, and every
output derived from item i carries either the plain batch-expanded payload
or that payload blended with item i's single noise draw. -/
theorem preset_noise_draw_order (nf : NoiseFn) (raw_layers : List (ℚ × ℚ))
    (strength_scale : ℚ) (batch_size_from_js : ℕ) (conditioning : List Segment)
    (seed : ℕ) :
    (conditioning.foldl (presetStep nf raw_layers strength_scale batch_size_from_js)
        ([], ⟨seed, 0⟩)
      = (((withIdx 0 conditioning).map
          (fun p => (processItemPreset nf raw_layers strength_scale batch_size_from_js
            ⟨seed, p.1⟩ p.2).1)).flatten,
         ⟨seed, conditioning.length⟩))
    ∧ (injectNoisePresetLayers nf conditioning raw_layers strength_scale seed
          batch_size_from_js
        = ((withIdx 0 conditioning).map
            (fun p => (processItemPreset nf raw_layers strength_scale batch_size_from_js
              ⟨seed, p.1⟩ p.2).1)).flatten)
    ∧ (∀ i t, (i, t) ∈ withIdx 0 conditioning →
        ∀ out ∈ (processItemPreset nf raw_layers strength_scale batch_size_from_js
            ⟨seed, i⟩ t).1,
          derivedFromNoise (expandBatch t.tensor batch_size_from_js)
            (randn nf seed i (expandBatch t.tensor batch_size_from_js)) out.tensor) := by
  have hfold := presetFold_eq nf raw_layers strength_scale batch_size_from_js
    conditioning [] seed 0
  rw [List.nil_append, Nat.zero_add] at hfold
  refine ⟨by rw [hfold], ?_, ?_⟩
  · unfold injectNoisePresetLayers
    rw [hfold]
  · intro i t _ out hout
    simp only [processItemPreset, List.mem_flatten, List.mem_map] at hout
    obtain ⟨l, ⟨seg, hseg, rfl⟩, houtl⟩ := hout
    simp only [processSegmentPreset] at houtl
    split at houtl
    · split at houtl
      · rw [List.mem_singleton] at houtl
        subst houtl
        exact Or.inr ⟨_, rfl⟩
      · rw [List.mem_singleton] at houtl
        subst houtl
        exact Or.inl rfl
    · simp at houtl

/-- Witness for C4: with one conditioning item and an empty recipe, the
single output carries the batch-expanded payload derived from draw 0. -/
theorem preset_noise_draw_order_witness :
    derivedFromNoise (expandBatch [[[(2 : ℚ)]]] 1)
      (randn (fun _ _ _ _ _ => 9) 0 0 (expandBatch [[[(2 : ℚ)]]] 1))
      (Segment.mk [[[(2 : ℚ)]]] (setWindow ⟨none, none, []⟩ 0 1)).tensor := by
  exact (preset_noise_draw_order (fun _ _ _ _ _ => 9) [] 1 1
      [⟨[[[(2 : ℚ)]]], ⟨none, none, []⟩⟩] 0).2.2 0 ⟨[[[(2 : ℚ)]]], ⟨none, none, []⟩⟩
    (by exact List.mem_singleton.mpr rfl)
    ⟨[[[(2 : ℚ)]]], setWindow ⟨none, none, []⟩ 0 1⟩
    (by norm_num [processItemPreset, processSegmentPreset, curveSegments, sortedBreaks,
      List.insertionSort, List.orderedInsert, List.dedup, get_time_intersection,
      totalStrength, setWindow, expandBatch, randn, randnLike, randMat, randRow])

lemma totalStrength_perm {l₁ l₂ : List (ℚ × ℚ)} (h : l₁.Perm l₂) (t : ℚ) :
    totalStrength l₁ t = totalStrength l₂ t :=
  ((h.filter _).map _).sum_eq

lemma sortedBreaks_perm {l₁ l₂ : List (ℚ × ℚ)} (h : l₁.Perm l₂) :
    sortedBreaks l₁ = sortedBreaks l₂ := by
  refine List.eq_of_perm_of_sorted ?_ (List.sorted_insertionSort _ _)
    (List.sorted_insertionSort _ _)
  exact (List.perm_insertionSort _ _).trans
    ((((h.map Prod.fst).cons 1).cons 0).dedup.trans (List.perm_insertionSort _ _).symm)

lemma curveSegments_perm {l₁ l₂ : List (ℚ × ℚ)} (h : l₁.Perm l₂) :
    curveSegments l₁ = curveSegments l₂ := by
  unfold curveSegments
  rw [sortedBreaks_perm h]

lemma processSegmentPreset_perm {l₁ l₂ : List (ℚ × ℚ)} (h : l₁.Perm l₂)
    (strength_scale : ℚ) (original_dict : CondDict) (processing noise : Tensor)
    (seg : ℚ × ℚ) :
    processSegmentPreset l₁ strength_scale original_dict processing noise seg
      = processSegmentPreset l₂ strength_scale original_dict processing noise seg := by
  unfold processSegmentPreset
  simp only [totalStrength_perm h]

lemma processItemPreset_perm {l₁ l₂ : List (ℚ × ℚ)} (h : l₁.Perm l₂)
    (nf : NoiseFn) (strength_scale : ℚ) (batch_size_from_js : ℕ) (g : Gen)
    (t : Segment) :
    processItemPreset nf l₁ strength_scale batch_size_from_js g t
      = processItemPreset nf l₂ strength_scale batch_size_from_js g t := by
  unfold processItemPreset
  rw [curveSegments_perm h]
  have hf : processSegmentPreset l₁ strength_scale t.dict
      = processSegmentPreset l₂ strength_scale t.dict := by
    funext processing noise seg
    exact processSegmentPreset_perm h strength_scale t.dict processing noise seg
  rw [hf]

/-- C7: in the fixed-recipe variant, permuting a recipe's layer list leaves
the emitted segment list (windows, payloads, metadata and order) unchanged,
for every conditioning list, global scale, seed and batch count. -/
theorem preset_layer_order_irrelevant (nf : NoiseFn) (conditioning : List Segment)
    {l₁ l₂ : List (ℚ × ℚ)} (h : l₁.Perm l₂) (strength_scale : ℚ) (seed : ℕ)
    (batch_size_from_js : ℕ) :
    injectNoisePresetLayers nf conditioning l₁ strength_scale seed batch_size_from_js
      = injectNoisePresetLayers nf conditioning l₂ strength_scale seed
          batch_size_from_js := by
  unfold injectNoisePresetLayers
  have hstep : presetStep nf l₁ strength_scale batch_size_from_js
      = presetStep nf l₂ strength_scale batch_size_from_js := by
    funext acc t
    unfold presetStep
    rw [processItemPreset_perm h]
  rw [hstep]

/-- Witness for C7: swapping the two layers of [(1/2, 2), (1/4, 3)] leaves
the scheduler's output unchanged on a concrete conditioning list. -/
theorem preset_layer_order_irrelevant_witness :
    injectNoisePresetLayers (fun _ _ _ _ _ => 1) [⟨[[[(1 : ℚ)]]], ⟨none, none, []⟩⟩]
        [((1 : ℚ)/2, 2), ((1 : ℚ)/4, 3)] 1 0 1
      = injectNoisePresetLayers (fun _ _ _ _ _ => 1) [⟨[[[(1 : ℚ)]]], ⟨none, none, []⟩⟩]
        [((1 : ℚ)/4, 3), ((1 : ℚ)/2, 2)] 1 0 1 :=
  preset_layer_order_irrelevant (fun _ _ _ _ _ => 1) [⟨[[[(1 : ℚ)]]], ⟨none, none, []⟩⟩]
    (List.Perm.swap _ _ _) 1 0 1

lemma takeWhile_eq_self_of_all {α : Type} (p : α → Bool) :
    ∀ (l : List α), (∀ x ∈ l, p x = true) → l.takeWhile p = l := by
  intro l
  induction l with
  | nil => intro _; rfl
  | cons x xs ih =>
    intro h
    simp [List.takeWhile_cons, h x (List.mem_cons_self _ _),
      ih (fun y hy => h y (List.mem_cons_of_mem _ hy))]

lemma rampLoop_range' (n : ℤ) (p sc c : ℚ) :
    ∀ (m k : ℕ), rampLoop n p sc c (List.range' k m) ((k : ℚ) * c)
      = (List.range' k m).map (fun (i : ℕ) =>
          ((i : ℚ) * c, ((i : ℚ) + 1) * c, p * (1 - progressAt n i * (9/10)) * sc)) := by
  intro m
  induction m with
  | zero => intro k; rfl
  | succ m ih =>
    intro k
    rw [List.range'_succ, List.map_cons]
    rw [show rampLoop n p sc c (k :: List.range' (k + 1) m) ((k : ℚ) * c)
        = ((k : ℚ) * c, (k : ℚ) * c + c, p * (1 - progressAt n k * (9/10)) * sc)
          :: rampLoop n p sc c (List.range' (k + 1) m) ((k : ℚ) * c + c) from rfl]
    have htail := ih (k + 1)
    rw [show ((k + 1 : ℕ) : ℚ) * c = (k : ℚ) * c + c from by push_cast; ring] at htail
    rw [htail, show (k : ℚ) * c + c = ((k : ℚ) + 1) * c from by ring]

lemma foldl_max_ends (c : ℚ) (hc : 0 ≤ c) (f : ℕ → ℚ) :
    ∀ (m k : ℕ) (a : ℚ),
      List.foldl (fun l (seg : ℚ × ℚ × ℚ) => max l seg.2.1) a
        ((List.range' k m).map (fun (i : ℕ) => ((i : ℚ) * c, ((i : ℚ) + 1) * c, f i)))
      = if m = 0 then a else max a (((k + m : ℕ) : ℚ) * c) := by
  intro m
  induction m with
  | zero => intro k a; simp
  | succ m ih =>
    intro k a
    rw [List.range'_succ, List.map_cons, List.foldl_cons]
    rw [show ((k : ℚ) * c, ((k : ℚ) + 1) * c, f k).2.1 = ((k : ℚ) + 1) * c from rfl]
    rw [ih (k + 1)]
    by_cases hm : m = 0
    · subst hm
      rw [if_pos rfl, if_neg (Nat.succ_ne_zero 0)]
      congr 1
      push_cast; ring
    · rw [if_neg hm, if_neg (Nat.succ_ne_zero m)]
      have hle : ((k : ℚ) + 1) * c ≤ ((k + 1 + m : ℕ) : ℚ) * c := by
        apply mul_le_mul_of_nonneg_right ?_ hc
        push_cast
        linarith [@Nat.cast_nonneg ℚ _ m]
      rw [max_assoc, max_eq_right hle]
      congr 1
      push_cast; ring

lemma stepLen_pos (steps : ℤ) : 0 < stepLen steps := by
  unfold stepLen
  apply div_pos zero_lt_one
  have h1 : (1 : ℤ) ≤ max 1 steps := le_max_left _ _
  exact_mod_cast lt_of_lt_of_le Int.zero_lt_one h1

lemma targetDuration_nonneg (steps : ℤ) (chaos_factor : ℚ) (h0 : 0 ≤ chaos_factor)
    (h1 : chaos_factor ≤ 1) : 0 ≤ targetDuration steps chaos_factor := by
  unfold targetDuration
  apply le_min ?_ zero_le_one
  have hs := (stepLen_pos steps).le
  nlinarith [mul_nonneg (mul_nonneg hs (by norm_num : (0 : ℚ) ≤ 3/2))
      (sub_nonneg.mpr h1),
    mul_nonneg (by norm_num : (0 : ℚ) ≤ 3/5) h0]

lemma dynCurveSpec_start_lt_one (steps num_segments : ℤ) (chaos_factor sc : ℚ)
    (hn : 1 ≤ num_segments) (h0 : 0 ≤ chaos_factor) (h1 : chaos_factor ≤ 1) :
    ∀ seg ∈ dynCurveSpec steps num_segments chaos_factor sc, seg.1 < 1 := by
  intro seg hseg
  unfold dynCurveSpec at hseg
  obtain ⟨i, hi, rfl⟩ := List.mem_map.mp hseg
  rw [List.mem_range] at hi
  have htd0 := targetDuration_nonneg steps chaos_factor h0 h1
  have htd1 : targetDuration steps chaos_factor ≤ 1 := min_le_right _ _
  have hnpos : (0 : ℚ) < (num_segments : ℚ) := by exact_mod_cast lt_of_lt_of_le zero_lt_one hn
  have hc0 : 0 ≤ chunkSize steps num_segments chaos_factor :=
    div_nonneg htd0 hnpos.le
  have hi' : (i : ℚ) + 1 ≤ (num_segments : ℚ) := by
    have h2 : i + 1 ≤ num_segments.toNat := hi
    have h3 : ((num_segments.toNat : ℤ) : ℚ) = (num_segments : ℚ) := by
      rw [Int.toNat_of_nonneg (by omega : (0 : ℤ) ≤ num_segments)]
    calc (i : ℚ) + 1 = ((i + 1 : ℕ) : ℚ) := by push_cast; ring
      _ ≤ ((num_segments.toNat : ℕ) : ℚ) := by exact_mod_cast h2
      _ = (num_segments : ℚ) := by exact_mod_cast h3
  calc (i : ℚ) * chunkSize steps num_segments chaos_factor
      ≤ ((num_segments : ℚ) - 1) * chunkSize steps num_segments chaos_factor :=
        mul_le_mul_of_nonneg_right (by linarith) hc0
    _ = ((num_segments : ℚ) - 1) * targetDuration steps chaos_factor
          / (num_segments : ℚ) := by rw [chunkSize]; ring
    _ < 1 := by
        rw [div_lt_one hnpos]
        nlinarith [mul_le_mul_of_nonneg_left htd1 (by linarith : (0 : ℚ) ≤ (num_segments : ℚ) - 1)]

/-- C5: for steps ≥ 1, num_segments ≥ 1, chaos in [0,1] and a non-negative
global scale, the procedural variant's curve is exactly num_segments
sub-windows [i*chunk, (i+1)*chunk) with intensity
peak * (1 - 0.9 * progress) * scale (progress = i/(num_segments-1) for more
than one segment, else 0), where chunk = target_duration / num_segments,
target_duration = lerp(1.5/steps, 0.60, chaos) clamped to ≤ 1 and
peak = lerp(2, 20, chaos); the clean tail then starts at
num_segments * chunk (last_end_time), covering the rest up to 1. -/
theorem dyn_curve_formula (steps num_segments : ℤ) (chaos_factor strength_scale : ℚ)
    (hsteps : 1 ≤ steps) (hn : 1 ≤ num_segments) (hc0 : 0 ≤ chaos_factor)
    (hc1 : chaos_factor ≤ 1) (hsc : 0 ≤ strength_scale) :
    injectDynamicCurve steps num_segments chaos_factor strength_scale
        = Except.ok (dynCurveSpec steps num_segments chaos_factor strength_scale)
      ∧ (dynCurveSpec steps num_segments chaos_factor strength_scale).length
          = num_segments.toNat
      ∧ targetDuration steps chaos_factor
          = min ((3/2) * (1 / (steps : ℚ))
              + (3/5 - (3/2) * (1 / (steps : ℚ))) * chaos_factor) 1
      ∧ peakStrength chaos_factor = 2 + (20 - 2) * chaos_factor
      ∧ lastEndTime (dynCurveSpec steps num_segments chaos_factor strength_scale)
          = (num_segments : ℚ) * chunkSize steps num_segments chaos_factor := by
  have hne : num_segments ≠ 0 := by omega
  have hnpos : (0 : ℚ) < (num_segments : ℚ) := by exact_mod_cast lt_of_lt_of_le zero_lt_one hn
  have htd0 := targetDuration_nonneg steps chaos_factor hc0 hc1
  have hc0' : 0 ≤ chunkSize steps num_segments chaos_factor :=
    div_nonneg htd0 hnpos.le
  refine ⟨?_, ?_, ?_, rfl, ?_⟩
  · unfold injectDynamicCurve
    rw [if_neg hne]
    congr 1
    have hloop := rampLoop_range' num_segments (peakStrength chaos_factor) strength_scale
      (chunkSize steps num_segments chaos_factor) num_segments.toNat 0
    norm_num at hloop
    rw [List.range_eq_range', hloop]
    unfold dynCurveSpec
    rw [List.range_eq_range']
    apply List.map_congr_left
    intro i _
    by_cases h2 : 1 < num_segments
    · have hmax : max 1 (num_segments - 1) = num_segments - 1 := by omega
      rw [Prod.ext_iff, Prod.ext_iff]
      refine ⟨rfl, rfl, ?_⟩
      rw [progressAt, if_pos h2, if_pos h2, hmax]
      rw [show ((num_segments - 1 : ℤ) : ℚ) = (num_segments : ℚ) - 1 from by push_cast; ring]
      ring
    · rw [Prod.ext_iff, Prod.ext_iff]
      refine ⟨rfl, rfl, ?_⟩
      rw [progressAt, if_neg h2, if_neg h2]
      ring
  · unfold dynCurveSpec
    simp
  · unfold targetDuration stepLen
    rw [max_eq_right hsteps]
    congr 1
    ring
  · unfold lastEndTime activeSegs
    rw [takeWhile_eq_self_of_all _ _ (fun seg hseg =>
      decide_eq_true (dynCurveSpec_start_lt_one steps num_segments chaos_factor
        strength_scale hn hc0 hc1 seg hseg))]
    unfold dynCurveSpec
    rw [List.range_eq_range']
    rw [foldl_max_ends _ hc0' _ num_segments.toNat 0 0]
    rw [if_neg (by omega : num_segments.toNat ≠ 0)]
    rw [max_eq_right (mul_nonneg (Nat.cast_nonneg _) hc0')]
    congr 1
    rw [Nat.zero_add]
    exact_mod_cast congrArg (fun z : ℤ => (z : ℚ))
      (Int.toNat_of_nonneg (by omega : (0 : ℤ) ≤ num_segments))

/-- Witness for C5 at steps = 9, num_segments = 2, chaos = 0, scale = 1. -/
theorem dyn_curve_formula_witness :
    injectDynamicCurve 9 2 0 1 = Except.ok (dynCurveSpec 9 2 0 1)
      ∧ lastEndTime (dynCurveSpec 9 2 0 1) = (2 : ℚ) * chunkSize 9 2 0 := by
  have h := dyn_curve_formula 9 2 0 1 (by norm_num) (by norm_num) (by norm_num)
    (by norm_num) (by norm_num)
  exact ⟨h.1, h.2.2.2.2⟩

/-- C8 counterexample: called with steps = 0 (and a positive num_segments)
the procedural variant completes normally — `max(1, steps)` silently clamps
the step count — rather than failing with any error. -/
theorem dyn_invalid_args_counterexample :
    injectDynamicCurve 0 1 0 1 = Except.ok [(0, 1, 2)] := by
  norm_num [injectDynamicCurve, rampLoop, peakStrength, chunkSize, targetDuration,
    stepLen, progressAt, List.range_succ]

/-- C8 amended: steps ≤ 0 is silently clamped to 1 (the call completes as if
steps were 1); num_segments = 0 makes `chunk_size`'s division fail
(a ZeroDivisionError, fatal to the call); num_segments < 0 completes with an
empty ramp, so only the clean tail is emitted. -/
theorem dyn_invalid_args (steps num_segments : ℤ) (chaos_factor strength_scale : ℚ) :
    (steps ≤ 0 → injectDynamicCurve steps num_segments chaos_factor strength_scale
        = injectDynamicCurve 1 num_segments chaos_factor strength_scale)
    ∧ (num_segments = 0 → injectDynamicCurve steps num_segments chaos_factor
          strength_scale
        = Except.error ("ZeroDivisionError: division by zero"))
    ∧ (num_segments < 0 → injectDynamicCurve steps num_segments chaos_factor
          strength_scale
        = Except.ok []) := by
  refine ⟨?_, ?_, ?_⟩
  · intro h
    have hmax : (max 1 steps : ℤ) = max 1 1 := by omega
    unfold injectDynamicCurve chunkSize targetDuration stepLen
    rw [hmax]
  · intro h
    rw [injectDynamicCurve, if_pos h]
  · intro h
    have h0 : num_segments ≠ 0 := by omega
    have ht : num_segments.toNat = 0 := by omega
    rw [injectDynamicCurve, if_neg h0, ht]
    rfl

/-- Witness for C8's amended claim, at steps = -3, num_segments ∈ {2, 0, -1}. -/
theorem dyn_invalid_args_witness :
    injectDynamicCurve (-3) 2 0 1 = injectDynamicCurve 1 2 0 1
    ∧ injectDynamicCurve 5 0 0 1 = Except.error ("ZeroDivisionError: division by zero")
    ∧ injectDynamicCurve 5 (-1) 0 1 = Except.ok [] :=
  ⟨(dyn_invalid_args (-3) 2 0 1).1 (by norm_num),
   (dyn_invalid_args 5 0 0 1).2.1 rfl,
   (dyn_invalid_args 5 (-1) 0 1).2.2 (by norm_num)⟩

/-- C9 counterexample: a payload with leading (batch) dimension 2 and target
batch count 3 does not raise any error — the preset scheduler completes and
passes the payload through with its leading dimension still 2. -/
theorem batch_mismatch_counterexample :
    injectNoisePresetLayers (fun _ _ _ _ _ => 0)
        [⟨[[[(1 : ℚ)]], [[(2 : ℚ)]]], ⟨none, none, []⟩⟩] [] 1 0 3
      = [⟨[[[(1 : ℚ)]], [[(2 : ℚ)]]], setWindow ⟨none, none, []⟩ 0 1⟩] := by
  norm_num [injectNoisePresetLayers, presetStep, processItemPreset, processSegmentPreset,
    curveSegments, sortedBreaks, totalStrength, get_time_intersection, setWindow,
    expandBatch, randn, randnLike, randMat, randRow, smulT, addT, List.insertionSort,
    List.orderedInsert, List.dedup]

/-- C9 amended: when the payload's leading dimension is not 1 (in particular
when it is neither 1 nor the target batch count while the target exceeds 1),
the scheduling call raises nothing and applies no broadcast rule at all: the
payload is left exactly as it came in. -/
theorem batch_mismatch_no_broadcast (tensor : Tensor) (batch_size_from_js : ℕ)
    (h : tensor.length ≠ 1) : expandBatch tensor batch_size_from_js = tensor := by
  unfold expandBatch
  rw [if_neg (fun hc => h hc.1)]

/-- Witness for C9's amended claim at a 2-batch payload with target batch 3. -/
theorem batch_mismatch_no_broadcast_witness :
    expandBatch [[[(1 : ℚ)]], [[(2 : ℚ)]]] 3 = [[[(1 : ℚ)]], [[(2 : ℚ)]]] :=
  batch_mismatch_no_broadcast [[[(1 : ℚ)]], [[(2 : ℚ)]]] 3 (by norm_num)

lemma curveSegments_nil : curveSegments ([] : List (ℚ × ℚ)) = [(0, 1)] := by
  norm_num [curveSegments, sortedBreaks, List.insertionSort, List.orderedInsert,
    List.dedup]

lemma processItemPreset_nil_layers (nf : NoiseFn) (strength_scale : ℚ)
    (batch_size_from_js : ℕ) (g : Gen) (t : Segment)
    (h0 : 0 ≤ t.dict.start_percent.getD 0)
    (h1 : t.dict.start_percent.getD 0 < t.dict.end_percent.getD 1)
    (h2 : t.dict.end_percent.getD 1 ≤ 1) :
    processItemPreset nf [] strength_scale batch_size_from_js g t
      = ([⟨expandBatch t.tensor batch_size_from_js,
          setWindow t.dict (t.dict.start_percent.getD 0) (t.dict.end_percent.getD 1)⟩],
         ⟨g.seed, g.draws + 1⟩) := by
  simp only [processItemPreset, curveSegments_nil, List.map_cons, List.map_nil,
    List.flatten_cons, List.flatten_nil, List.append_nil]
  rw [Prod.mk.injEq]
  refine ⟨?_, rfl⟩
  simp only [processSegmentPreset, get_time_intersection, totalStrength,
    List.filter_nil, List.map_nil, List.sum_nil, zero_mul, lt_irrefl, if_false,
    max_eq_left h0, min_eq_left h2]
  rw [if_pos h1]

/-- C10: a preset name missing from the recipe table is not an error — with
valid input windows inside [0,1] the call behaves exactly like the empty
recipe, emitting one pass-through segment per input, with the input's own
window and the batch-expanded payload. -/
theorem unknown_preset_passthrough (nf : NoiseFn) (conditioning : List Segment)
    (preset : String) (strength_scale : ℚ) (seed batch_size_from_js : ℕ)
    (hmiss : RECIPES.lookup preset = none)
    (hw : ∀ t ∈ conditioning, 0 ≤ t.dict.start_percent.getD 0
        ∧ t.dict.start_percent.getD 0 < t.dict.end_percent.getD 1
        ∧ t.dict.end_percent.getD 1 ≤ 1) :
    injectNoisePreset nf conditioning preset strength_scale seed batch_size_from_js
      = conditioning.map (fun t =>
          ⟨expandBatch t.tensor batch_size_from_js,
           setWindow t.dict (t.dict.start_percent.getD 0)
             (t.dict.end_percent.getD 1)⟩) := by
  unfold injectNoisePreset
  rw [hmiss]
  rw [show (none : Option (List (ℚ × ℚ))).getD [] = [] from rfl]
  unfold injectNoisePresetLayers
  rw [presetFold_eq nf [] strength_scale batch_size_from_js conditioning [] seed 0]
  simp only [List.nil_append]
  suffices h : ∀ (cond : List Segment) (d : ℕ),
      (∀ t ∈ cond, 0 ≤ t.dict.start_percent.getD 0
        ∧ t.dict.start_percent.getD 0 < t.dict.end_percent.getD 1
        ∧ t.dict.end_percent.getD 1 ≤ 1) →
      ((withIdx d cond).map
        (fun p => (processItemPreset nf [] strength_scale batch_size_from_js
          ⟨seed, p.1⟩ p.2).1)).flatten
      = cond.map (fun t => ⟨expandBatch t.tensor batch_size_from_js,
          setWindow t.dict (t.dict.start_percent.getD 0)
            (t.dict.end_percent.getD 1)⟩) by
    exact h conditioning 0 hw
  intro cond
  induction cond with
  | nil => intro d _; rfl
  | cons t rest ih =>
    intro d hw'
    rw [show withIdx d (t :: rest) = (d, t) :: withIdx (d + 1) rest from rfl,
      List.map_cons, List.flatten_cons, List.map_cons]
    obtain ⟨ha, hb, hc⟩ := hw' t (List.mem_cons_self _ _)
    have hhead : (processItemPreset nf [] strength_scale batch_size_from_js
          ⟨seed, d⟩ t).1
        = [⟨expandBatch t.tensor batch_size_from_js, setWindow t.dict
            (t.dict.start_percent.getD 0) (t.dict.end_percent.getD 1)⟩] := by
      rw [processItemPreset_nil_layers nf strength_scale batch_size_from_js
        ⟨seed, d⟩ t ha hb hc]
    simp only [hhead]
    rw [ih (d + 1) (fun y hy => hw' y (List.mem_cons_of_mem _ hy))]
    rfl

/-- Witness for C10: the name "NotARecipe" is not in the table; an input with
window (1/4, 3/4) passes through with its own window and payload. -/
theorem unknown_preset_passthrough_witness :
    injectNoisePreset (fun _ _ _ _ _ => 0)
        [⟨[[[(5 : ℚ)]]], ⟨some (1/4), some (3/4), []⟩⟩] ("NotARecipe") 1 0 1
      = [⟨[[[(5 : ℚ)]]], setWindow ⟨some (1/4), some (3/4), []⟩ (1/4) (3/4)⟩] := by
  rw [unknown_preset_passthrough (fun _ _ _ _ _ => 0)
    [⟨[[[(5 : ℚ)]]], ⟨some (1/4), some (3/4), []⟩⟩] ("NotARecipe") 1 0 1 (by rfl)
    (by
      intro t ht
      rw [List.mem_singleton] at ht
      subst ht
      norm_num)]
  norm_num [expandBatch]

end CNI
